import Mathlib

/-!
# Verification of the hermes utility core

Shallow embedding of the cache, rate-limiter, retry/backoff, and text
segmentation code of the `hermes` repository
(`src/hermes/infra/cache.py`, `src/hermes/infra/rate_limiter.py`,
`src/hermes/infra/retry.py`, `src/hermes/ingestion/sec_parser.py`,
`src/hermes/ingestion/transcript_parser.py`), together with theorems
settling the specification claims about this code.

Modelling conventions:
* Python `float` time/token arithmetic is modelled with `ℚ`; every concrete
  value appearing in the claims (whole seconds, 0.5, token counts) is exactly
  representable, and the operations involved are exact on them.
* Raw bytes are `List Nat`, text is `List Char` (Python `len` counts code
  points, as does `List.length`).
* The on-disk cache is a pair of partial maps keyed by
  (namespace, hashed key): one for `.data` files, one for `.meta` files.
  The SHA-256 digest (`hashlib`, an external library) is abstracted as an
  arbitrary function `hash : String → String`; no theorem below depends on
  its properties.
* Python code that can raise is embedded with `Except PyErr`.
-/

set_option autoImplicit false

namespace Hermes

/-! ## Disk cache (`src/hermes/infra/cache.py`) -/

namespace Cache

/-- Raw file bytes. -/
abbrev Bytes := List Nat

/-- Exceptions that the modelled cache code can raise. -/
inductive PyErr where
  | keyError
  | attributeError
  deriving DecidableEq, Repr

/-- The possible contents of a `.meta` file, as seen by `json.loads`:

* `notJson`: the file is unreadable or fails JSON decoding
  (`json.JSONDecodeError` / `OSError`, the cases `_read_meta` catches);
* `nonDict`: valid JSON that is not an object (e.g. `5`), on which
  `meta.get(...)` raises `AttributeError`;
* `dict created ttl`: a JSON object; `created = none` models a missing
  (or non-numeric, which likewise raises when used) `created_at` field,
  `ttl = none` models a missing or `null` `ttl_seconds` field
  (`meta.get("ttl_seconds")` returns `None` in both cases). -/
inductive MetaJson where
  | notJson
  | nonDict
  | dict (created : Option ℚ) (ttl : Option ℚ)
  deriving DecidableEq

/-- The cache directory: partial maps from (namespace, hashed-key filename)
to the contents of the `<digest>.data` and `<digest>.meta` files. -/
structure FS where
  dataFiles : String → String → Option Bytes
  metaFiles : String → String → Option MetaJson

/-- `FileCache._read_meta`: returns the decoded JSON, or `None` exactly when
reading/JSON-decoding fails. -/
def readMeta : MetaJson → Option MetaJson
  | .notJson => none
  | m => some m

/-- `FileCache._is_expired`: permanent (`ttl_seconds` absent/null) entries
never expire; otherwise compare `time.time() - meta["created_at"] > ttl`.
When `ttl` is set but `created_at` is missing, the subscript raises
`KeyError`. -/
def isExpired (now : ℚ) (created ttl : Option ℚ) : Except PyErr Bool :=
  match ttl with
  | none => .ok false
  | some t =>
    match created with
    | none => .error .keyError
    | some c => .ok (decide (now - c > t))

/-- `FileCache._remove_pair`: unlink both files (missing_ok). -/
def removePair (fs : FS) (ns hk : String) : FS where
  dataFiles := fun n k => if n = ns ∧ k = hk then none else fs.dataFiles n k
  metaFiles := fun n k => if n = ns ∧ k = hk then none else fs.metaFiles n k

/-- `FileCache.put`: write the data file, then a fresh meta file with
`created_at = time.time()` and the given `ttl_seconds`. -/
def put (hash : String → String) (fs : FS) (now : ℚ) (ns key : String)
    (data : Bytes) (ttl : Option ℚ) : FS where
  dataFiles := fun n k =>
    if n = ns ∧ k = hash key then some data else fs.dataFiles n k
  metaFiles := fun n k =>
    if n = ns ∧ k = hash key then some (.dict (some now) ttl) else fs.metaFiles n k

/-- `FileCache.get`: returns the stored bytes, or `none` if missing, corrupt
(JSON-undecodable, with the file pair removed) or expired (removed). The
resulting filesystem is returned alongside; exceptions propagate. -/
def get (hash : String → String) (fs : FS) (now : ℚ) (ns key : String) :
    Except PyErr (Option Bytes × FS) :=
  let hk := hash key
  match fs.dataFiles ns hk, fs.metaFiles ns hk with
  | some data, some m =>
    match readMeta m with
    | none => .ok (none, removePair fs ns hk)
    | some .notJson => .ok (none, removePair fs ns hk)
    | some .nonDict => .error .attributeError
    | some (.dict created ttl) =>
      match isExpired now created ttl with
      | .error e => .error e
      | .ok true => .ok (none, removePair fs ns hk)
      | .ok false => .ok (some data, fs)
  | _, _ => .ok (none, fs)

/-- `FileCache.has`: like `get` but returns a Bool; on corrupt
(JSON-undecodable) metadata it returns `False` *without* removing the files;
only expiry triggers removal. -/
def has (hash : String → String) (fs : FS) (now : ℚ) (ns key : String) :
    Except PyErr (Bool × FS) :=
  let hk := hash key
  match fs.dataFiles ns hk, fs.metaFiles ns hk with
  | some _, some m =>
    match readMeta m with
    | none => .ok (false, fs)
    | some .notJson => .ok (false, fs)
    | some .nonDict => .error .attributeError
    | some (.dict created ttl) =>
      match isExpired now created ttl with
      | .error e => .error e
      | .ok true => .ok (false, removePair fs ns hk)
      | .ok false => .ok (true, fs)
  | _, _ => .ok (false, fs)

/-- `FileCache.clear_namespace`: `shutil.rmtree` of one namespace
directory. -/
def clearNamespace (fs : FS) (ns : String) : FS where
  dataFiles := fun n k => if n = ns then none else fs.dataFiles n k
  metaFiles := fun n k => if n = ns then none else fs.metaFiles n k

/-- The value component of `get` (the bytes handed to the caller). -/
def getVal (hash : String → String) (fs : FS) (now : ℚ) (ns key : String) :
    Except PyErr (Option Bytes) :=
  (get hash fs now ns key).map Prod.fst

/-- The value component of `has`. -/
def hasVal (hash : String → String) (fs : FS) (now : ℚ) (ns key : String) :
    Except PyErr Bool :=
  (has hash fs now ns key).map Prod.fst

/-- The empty cache directory. -/
def emptyFS : FS where
  dataFiles := fun _ _ => none
  metaFiles := fun _ _ => none

/-- A cache directory holding one entry whose metadata file fails JSON
decoding. -/
def corruptMetaFS : FS where
  dataFiles := fun n k => if n = "n" ∧ k = "k" then some [0] else none
  metaFiles := fun n k => if n = "n" ∧ k = "k" then some .notJson else none

/-- A cache directory holding one entry whose metadata decodes as the JSON
object `{"ttl_seconds": 5}` — valid JSON, but missing `created_at`. -/
def schemaBrokenFS : FS where
  dataFiles := fun n k => if n = "n" ∧ k = "k" then some [0] else none
  metaFiles := fun n k =>
    if n = "n" ∧ k = "k" then some (.dict none (some 5)) else none

end Cache

/-! ## Token-bucket rate limiter (`src/hermes/infra/rate_limiter.py`) -/

namespace Limiter

/-- The mutable state of a `RateLimiter`: configured `rate` and `per`, the
current token count, and the monotonic timestamp of the last refill. -/
structure State where
  rate : ℚ
  per : ℚ
  tokens : ℚ
  lastRefill : ℚ
  deriving DecidableEq

/-- `RateLimiter.__init__`: the bucket starts full (`self._tokens = rate`)
with `last_refill` set to the construction time. -/
def init (rate per now : ℚ) : State :=
  { rate := rate, per := per, tokens := rate, lastRefill := now }

/-- `RateLimiter._refill`: add `elapsed * rate / per` tokens, capped at
`rate`, and advance `last_refill`. -/
def refill (l : State) (now : ℚ) : State :=
  { l with
    lastRefill := now
    tokens := min l.rate (l.tokens + (now - l.lastRefill) * (l.rate / l.per)) }

/-- One body iteration of `RateLimiter.acquire` while holding the lock:
refill, then either consume one token (granted) or leave the state for a
sleep-and-retry.  Returns whether the acquisition was granted. -/
def tryAcquire (l : State) (now : ℚ) : Bool × State :=
  let r := refill l now
  if 1 ≤ r.tokens then (true, { r with tokens := r.tokens - 1 }) else (false, r)

/-- One attempt applied to a (state, grants-so-far) pair. -/
def step (p : State × ℕ) (t : ℚ) : State × ℕ :=
  let g := tryAcquire p.1 t
  (g.2, p.2 + if g.1 then 1 else 0)

/-- Run a sequence of lock-protected `acquire` attempts at the given
monotonic times (the interleaving of all concurrent callers' loop
iterations, serialized by the `asyncio.Lock`), counting grants. -/
def runCount (l : State) (ts : List ℚ) : State × Nat :=
  ts.foldl step (l, 0)

/-- The limiter state after a sequence of attempts. -/
def runAttempts (l : State) (ts : List ℚ) : State :=
  (runCount l ts).1

end Limiter

/-! ## Retry / backoff policy (`src/hermes/infra/retry.py`) -/

namespace Retry

/-- `RetryConfig` (times in seconds, modelled in `ℚ`). -/
structure RetryConfig where
  maxRetries : ℕ := 3
  maxWait : ℚ := 120
  baseBackoff : ℚ := 30

/-- Value of a digit string read in base 10 (`float("123")`-style integer
part). -/
def digitsToNat (ds : List Char) : ℕ :=
  ds.foldl (fun n c => 10 * n + (c.toNat - ('0').toNat)) 0

/-- Value of a fractional digit string (the part after the decimal point). -/
def fracVal (ds : List Char) : ℚ :=
  (digitsToNat ds : ℚ) / 10 ^ ds.length

/-- Match the leading number of a Go-duration token: the regex fragment
`\d+(?:\.\d+)?` with maximal munch (one or more digits, then an optional
fraction only when a literal dot is directly followed by a digit).  Returns
the numeric value and the unconsumed rest. -/
def matchNumber (l : List Char) : Option (ℚ × List Char) :=
  let ds := l.takeWhile Char.isDigit
  if ds.isEmpty then none
  else
    let r1 := l.dropWhile Char.isDigit
    match r1 with
    | '.' :: r =>
      let fs := r.takeWhile Char.isDigit
      if fs.isEmpty then some ((digitsToNat ds : ℚ), r1)
      else some ((digitsToNat ds : ℚ) + fracVal fs, r.dropWhile Char.isDigit)
    | _ => some ((digitsToNat ds : ℚ), r1)

/-- Match one token of `re.findall(r"(\d+(?:\.\d+)?)([a-z]+)", s)` at the
current position: a number followed by one or more lowercase letters
(maximal munch; the regex needs no further backtracking because shrinking
either greedy part only exposes a digit where a dot or letter is
required). -/
def matchToken (l : List Char) : Option (ℚ × List Char × List Char) :=
  match matchNumber l with
  | none => none
  | some (v, r) =>
    let us := r.takeWhile Char.isLower
    if us.isEmpty then none else some (v, us, r.dropWhile Char.isLower)

/-- The `re.findall` scan: try a match at each position, emitting matched
`(value, unit)` pairs and resuming after each match, otherwise advancing one
character.  `fuel` bounds the recursion; it is set to the input length. -/
def scanGo : ℕ → List Char → List (ℚ × List Char)
  | 0, _ => []
  | _, [] => []
  | fuel + 1, c :: rest =>
    match matchToken (c :: rest) with
    | some (v, u, r) => (v, u) :: scanGo fuel r
    | none => scanGo fuel rest

/-- All `(value, unit)` pairs found by `re.findall` over the string. -/
def scanTokens (l : List Char) : List (ℚ × List Char) :=
  scanGo l.length l

/-- Seconds contributed by one token, per the `match unit` cases of
`_parse_go_duration` (unknown units contribute 0). -/
def unitSeconds (unit : List Char) (v : ℚ) : ℚ :=
  if unit = ['h'] then v * 3600
  else if unit = ['m'] then v * 60
  else if unit = ['s'] then v
  else if unit = ['m', 's'] then v / 1000
  else 0

/-- `_parse_go_duration`: total seconds over all scanned tokens. -/
def parseGoDuration (l : List Char) : ℚ :=
  (scanTokens l).foldl (fun acc t => acc + unitSeconds t.2 t.1) 0

/-- Model of the Python builtin `float(str)` on plain decimal notation
(optional sign, digits, optional fractional part): `some` value on success,
`none` when the builtin would raise `ValueError`.  Exponent, infinity, nan
and surrounding-whitespace forms of the builtin are not modelled; no header
value in the claims uses them. -/
def pyFloat (s : String) : Option ℚ :=
  let l := s.toList
  let sl :=
    match l with
    | '-' :: r => ((-1 : ℚ), r)
    | '+' :: r => ((1 : ℚ), r)
    | _ => ((1 : ℚ), l)
  let ds := sl.2.takeWhile Char.isDigit
  let r1 := sl.2.dropWhile Char.isDigit
  match r1 with
  | [] => if ds.isEmpty then none else some (sl.1 * digitsToNat ds)
  | '.' :: r2 =>
    let fs := r2.takeWhile Char.isDigit
    if r2.dropWhile Char.isDigit = [] then
      if ds.isEmpty ∧ fs.isEmpty then none
      else some (sl.1 * ((digitsToNat ds : ℚ) + fracVal fs))
    else none
  | _ => none

/-- A `google.protobuf` duration object (`exc.retry_delay`), with
`getattr(..., "seconds"/"nanos", 0) or 0` already applied. -/
structure ProtoDuration where
  seconds : ℚ
  nanos : ℚ

/-- One entry of the google error body list `error.details`:
`detail.get("@type", "")` and `detail.get("retryDelay", "")`. -/
structure RetryDetail where
  typeUrl : String
  retryDelay : String

/-- The provider-specific signals extractable from a rate-limit exception:

* `headers = none` models `exc.response.headers` raising
  (`AttributeError`/`TypeError`, both caught); `some h` gives
  `headers.get` as a partial map;
* `bodyDetails = none` models `exc.response.json()` raising or the body not
  having the `{"error": {"details": [...]}}` shape (all caught);
* `retryDelay = none` models `exc.retry_delay` raising `AttributeError`. -/
structure ExcInfo where
  headers : Option (String → Option String)
  bodyDetails : Option (List RetryDetail)
  retryDelay : Option ProtoDuration

/-- The fallback chain for an openai-family reset header: `if val:` skips
both a missing header and an empty string. -/
def resetHeaderVal (h : String → Option String) (name : String) : Option String :=
  match h name with
  | some v => if v = "" then none else some v
  | none => none

/-- `extract_retry_after(exc, provider, config)`. -/
def extractRetryAfter (provider : String) (e : ExcInfo) (cfg : RetryConfig) : ℚ :=
  if provider = "anthropic" then
    match e.headers with
    | none => cfg.baseBackoff
    | some h =>
      match h ("retry-after") with
      | none => cfg.baseBackoff
      | some v =>
        match pyFloat v with
        | some x => x
        | none => cfg.baseBackoff
  else if provider = "openai" ∨ provider = "xai" ∨ provider = "deepseek" then
    match e.headers with
    | none => cfg.baseBackoff
    | some h =>
      match h ("retry-after") with
      | some v =>
        match pyFloat v with
        | some x => x
        | none => parseGoDuration v.toList
      | none =>
        match resetHeaderVal h ("x-ratelimit-reset-requests") with
        | some v => parseGoDuration v.toList
        | none =>
          match resetHeaderVal h ("x-ratelimit-reset-tokens") with
          | some v => parseGoDuration v.toList
          | none => cfg.baseBackoff
  else if provider = "google" then
    let fromProto : ℚ :=
      match e.retryDelay with
      | none => cfg.baseBackoff
      | some pd =>
        let total := pd.seconds + pd.nanos / 1000000000
        if 0 < total then total else cfg.baseBackoff
    match e.bodyDetails with
    | none => fromProto
    | some ds =>
      match ds.find? (fun d => d.typeUrl.endsWith ("RetryInfo") && d.retryDelay != "") with
      | some d => parseGoDuration d.retryDelay.toList
      | none => fromProto
  else cfg.baseBackoff

/-- An exception carrying no extractable signal at all. -/
def noSignal : ExcInfo where
  headers := none
  bodyDetails := none
  retryDelay := none

/-- Concatenation of number-plus-unit components; used to state the general
summation property of the duration parser over arbitrary well-formed
component lists. -/
def renderTokens (ts : List (List Char × List Char)) : List Char :=
  ts.flatMap (fun t => t.1 ++ t.2)

end Retry

/-! ## Text segmentation (`src/hermes/ingestion/sec_parser.py`,
`src/hermes/ingestion/transcript_parser.py`)

Text is `List Char`.  The BeautifulSoup HTML walk of
`SecFilingParser._extract_text_blocks` (and the regex speaker scan of
`TranscriptParser._split_by_speaker`) hand the rest of each pipeline an
arbitrary list of text blocks (resp. segments); the embedding starts from
those lists, over which the general theorems quantify.  The `re`
whitespace/word classes are modelled on their ASCII parts. -/

namespace Seg

abbrev Text := List Char

/-- Python `str.strip()` / `re` `\s` whitespace, ASCII part. -/
def isPyWs (c : Char) : Bool :=
  c == ' ' || c == '\t' || c == '\n' || c == '\r' || c == '\x0B' || c == '\x0C'

/-- Python `str.strip()`: drop whitespace from both ends. -/
def stripText (l : Text) : Text :=
  ((l.dropWhile isPyWs).reverse.dropWhile isPyWs).reverse

/-- Characters collapsed by `_clean_text`'s first substitution
(`[\t\r\xa0]+` → `" "`). -/
def tabCrNbsp (c : Char) : Bool :=
  c == '\t' || c == '\r' || c == '\xA0'

/-- Worker for `squashRuns`: `inRun` records whether the previous character
was part of a run being replaced. -/
def squashRunsGo (p : Char → Bool) (r : Char) (inRun : Bool) : Text → Text
  | [] => []
  | c :: rest =>
    if p c then
      if inRun then squashRunsGo p r true rest
      else r :: squashRunsGo p r true rest
    else c :: squashRunsGo p r false rest

/-- Replace every maximal run of characters satisfying `p` by the single
character `r` (the effect of `re.sub` with a `X+`-style pattern; also of
`" {2,}" → " "`, since a lone space maps to itself). -/
def squashRuns (p : Char → Bool) (r : Char) (l : Text) : Text :=
  squashRunsGo p r false l

/-- Emit a pending run of `k` newlines under the `\n{3,}` → `"\n\n"` rule. -/
def emitNl (k : ℕ) : Text :=
  if 3 ≤ k then ['\n', '\n'] else List.replicate k '\n'

/-- Worker for `squashNewlines`: `k` counts pending newlines. -/
def squashNlGo (k : ℕ) : Text → Text
  | [] => emitNl k
  | c :: rest =>
    if c = '\n' then squashNlGo (k + 1) rest
    else emitNl k ++ c :: squashNlGo 0 rest

/-- `_clean_text`'s third substitution: `\n{3,}` → `"\n\n"`; runs of one or
two newlines are left unchanged. -/
def squashNewlines (l : Text) : Text :=
  squashNlGo 0 l

/-- `SecFilingParser._clean_text` / `TranscriptParser._clean_text`: the
three `re.sub` passes followed by `strip()`. -/
def cleanText (l : Text) : Text :=
  stripText (squashNewlines (squashRuns (· == ' ') ' ' (squashRuns tabCrNbsp ' ' l)))

/-- Worker for `text.split("\n\n")`: leftmost non-overlapping occurrences,
accumulating the current piece reversed. -/
def splitParasGo (cur : Text) : Text → List Text
  | [] => [cur.reverse]
  | [c] => [(c :: cur).reverse]
  | c1 :: c2 :: rest =>
    if c1 = '\n' ∧ c2 = '\n' then cur.reverse :: splitParasGo [] rest
    else splitParasGo (c1 :: cur) (c2 :: rest)

/-- Python `text.split("\n\n")`. -/
def splitParas (l : Text) : List Text :=
  splitParasGo [] l

/-- Python `"\n\n".join(parts)`. -/
def joinParas : List Text → Text
  | [] => []
  | [p] => p
  | p :: rest => p ++ '\n' :: '\n' :: joinParas rest

/-- Worker for `hardSplit`; `fuel` bounds the recursion and is set to the
input length (each step consumes at least one character when `0 < m`). -/
def hardSplitGo (m : ℕ) : ℕ → Text → List Text
  | _, [] => []
  | 0, l => [l]
  | fuel + 1, l => if m = 0 then [l] else l.take m :: hardSplitGo m fuel (l.drop m)

/-- The hard fallback `for i in range(0, len(para), maxLen)`: slices of
`maxLen` characters.  (`maxLen = 0`, on which the Python `range` would
raise, is given an arbitrary total value; both parsers use positive
bounds.) -/
def hardSplit (m : ℕ) (l : Text) : List Text :=
  hardSplitGo m l.length l

/-- Running total `current_length`: each kept paragraph counts
`len(para) + 2` for the join separator. -/
def sumLens (ps : List Text) : ℕ :=
  (ps.map (fun p => p.length + 2)).sum

/-- The accumulation loop of `_split_long_text` (both parsers share it
verbatim, differing only in `MAX_NODE_LENGTH`): flush the current chunk
when the next paragraph would overflow, hard-split oversized paragraphs,
otherwise accumulate. -/
def splitLongGo (m : ℕ) : List Text → List Text → ℕ → List Text
  | [], cur, _ => if cur = [] then [] else [joinParas cur]
  | p :: rest, cur, curLen =>
    let pl := p.length + 2
    let flushed : List Text :=
      if m < curLen + pl ∧ cur ≠ [] then [joinParas cur] else []
    let cur1 := if m < curLen + pl ∧ cur ≠ [] then [] else cur
    let len1 := if m < curLen + pl ∧ cur ≠ [] then 0 else curLen
    if m < pl then flushed ++ hardSplit m p ++ splitLongGo m rest cur1 len1
    else flushed ++ splitLongGo m rest (cur1 ++ [p]) (len1 + pl)

/-- `_split_long_text`: texts within the limit pass through unchanged;
longer texts are split at paragraph boundaries with hard slicing as the
fallback. -/
def splitLongText (m : ℕ) (t : Text) : List Text :=
  if t.length ≤ m then [t] else splitLongGo m (splitParas t) [] 0

/-! ### SEC filing parser -/

/-- `SecFilingParser.SECTION_PATTERNS`. -/
def SECTION_PATTERNS : List (String × String) :=
  [ ("item 1a", "Risk Factors")
  , ("item 1b", "Unresolved Staff Comments")
  , ("item 1c", "Cybersecurity")
  , ("item 1", "Business")
  , ("item 2", "Properties")
  , ("item 3", "Legal Proceedings")
  , ("item 4", "Mine Safety Disclosures")
  , ("item 5", "Market for Registrant\x27s Common Equity")
  , ("item 6", "Reserved")
  , ("item 7a", "Quantitative and Qualitative Disclosures About Market Risk")
  , ("item 7", "Management\x27s Discussion and Analysis (MD&A)")
  , ("item 8", "Financial Statements and Supplementary Data")
  , ("item 9a", "Controls and Procedures")
  , ("item 9b", "Other Information")
  , ("item 9", "Changes in and Disagreements with Accountants")
  , ("item 10", "Directors, Executive Officers and Corporate Governance")
  , ("item 11", "Executive Compensation")
  , ("item 12", "Security Ownership")
  , ("item 13", "Certain Relationships and Related Transactions")
  , ("item 14", "Principal Accountant Fees and Services")
  , ("item 15", "Exhibits and Financial Statement Schedules")
  , ("item 16", "Form 10-K Summary")
  , ("part i", "Financial Information")
  , ("part ii", "Other Information") ]

/-- `re` `\w` word character, ASCII part. -/
def isWordChar (c : Char) : Bool :=
  c.isAlphanum || c == '_'

/-- The `\b` boundary after the captured group: end of string or a
non-word character. -/
def boundaryOk : Text → Bool
  | [] => true
  | c :: _ => !isWordChar c

/-- Case-insensitive literal match of a lowercase pattern against a prefix,
returning the unconsumed rest. -/
def matchCI (pat : Text) (l : Text) : Option Text :=
  match pat, l with
  | [], r => some r
  | _ :: _, [] => none
  | p :: ps, c :: cs => if c.toLower = p then matchCI ps cs else none

/-- `_ITEM_PATTERN` = `^\s*item\s+(\d+[a-c]?)\b` (IGNORECASE): returns the
captured group in its original case.  The optional `[a-c]` letter
backtracks: it is kept only when the boundary after it holds, otherwise the
match retries without it. -/
def itemMatch (l : Text) : Option Text :=
  match matchCI ['i', 't', 'e', 'm'] (l.dropWhile isPyWs) with
  | none => none
  | some r1 =>
    match r1 with
    | [] => none
    | c :: r2 =>
      if isPyWs c then
        let r3 := r2.dropWhile isPyWs
        let ds := r3.takeWhile Char.isDigit
        if ds = [] then none
        else
          match r3.dropWhile Char.isDigit with
          | [] => some ds
          | c2 :: r5 =>
            if (c2.toLower = 'a' ∨ c2.toLower = 'b' ∨ c2.toLower = 'c') ∧ boundaryOk r5 then
              some (ds ++ [c2])
            else if boundaryOk (c2 :: r5) then some ds
            else none
      else none

/-- The alternation `(i{1,3}|iv)\b` of `_PART_PATTERN`: greedy run of `i`s
tried at lengths 3, 2, 1 (regex backtracking), then the literal `iv`. -/
def partRoman (l : Text) : Option Text :=
  let k := (l.takeWhile (fun c => c.toLower == 'i')).length
  if 3 ≤ k ∧ boundaryOk (l.drop 3) then some (l.take 3)
  else if 2 ≤ k ∧ boundaryOk (l.drop 2) then some (l.take 2)
  else if 1 ≤ k ∧ boundaryOk (l.drop 1) then some (l.take 1)
  else
    match l with
    | c1 :: c2 :: r =>
      if c1.toLower = 'i' ∧ c2.toLower = 'v' ∧ boundaryOk r then some [c1, c2]
      else none
    | _ => none

/-- `_PART_PATTERN` = `^\s*part\s+(i{1,3}|iv)\b` (IGNORECASE). -/
def partMatch (l : Text) : Option Text :=
  match matchCI ['p', 'a', 'r', 't'] (l.dropWhile isPyWs) with
  | none => none
  | some r1 =>
    match r1 with
    | [] => none
    | c :: r2 => if isPyWs c then partRoman (r2.dropWhile isPyWs) else none

/-- `SecFilingParser._identify_section`: strip, try the Item pattern, then
the Part pattern; each hit is looked up in `SECTION_PATTERNS` (an exact
`dict.get` on `f"item {group.lower()}"` / `f"part {group.lower()}"`),
falling through on a miss. -/
def identifySection (t : Text) : Option (String × String) :=
  let s := stripText t
  let tryPart : Option (String × String) :=
    match partMatch s with
    | some g =>
      let key := String.mk (('p') :: ('a') :: ('r') :: ('t') :: (' ') :: g.map Char.toLower)
      match SECTION_PATTERNS.lookup key with
      | some name => some (key, name)
      | none => none
    | none => none
  match itemMatch s with
  | some g =>
    let key := String.mk (('i') :: ('t') :: ('e') :: ('m') :: (' ') :: g.map Char.toLower)
    match SECTION_PATTERNS.lookup key with
    | some name => some (key, name)
    | none => tryPart
  | none => tryPart

/-- The loop of `SecFilingParser._split_into_sections`: text blocks
accumulate under the current section; a recognized heading flushes the
accumulated text and opens a new section. -/
def secSectionsGo (curId curName : String) (parts : List Text) :
    List Text → List (String × String × Text)
  | [] => if parts = [] then [] else [(curId, curName, joinParas parts)]
  | b :: rest =>
    match identifySection b with
    | some (sid, sname) =>
      (if parts = [] then ([] : List (String × String × Text))
       else [(curId, curName, joinParas parts)])
        ++ secSectionsGo sid sname [] rest
    | none => secSectionsGo curId curName (parts ++ [b]) rest

/-- `SecFilingParser._split_into_sections`, starting in the `preamble`
pseudo-section. -/
def secSections (blocks : List Text) : List (String × String × Text) :=
  secSectionsGo ("preamble") ("Preamble") [] blocks

/-- One emitted `TextNode` of the SEC parser (`metadata["section_id"]`,
`metadata["section_name"]`, and the chunk metadata present when a section
was split). -/
structure SecNode where
  text : Text
  sectionId : String
  sectionName : String
  chunkIndex : Option (ℕ × ℕ)
  deriving DecidableEq

/-- The per-section body of `SecFilingParser.parse`: clean, drop sections
below `MIN_SECTION_LENGTH = 200`, split at `MAX_NODE_LENGTH = 8000`. -/
def secNodesOf (s : String × String × Text) : List SecNode :=
  let ct := cleanText s.2.2
  if ct.length < 200 then []
  else
    (splitLongText 8000 ct).enum.map fun ic =>
      { text := ic.2
        sectionId := s.1
        sectionName := s.2.1
        chunkIndex :=
          if 1 < (splitLongText 8000 ct).length
          then some (ic.1, (splitLongText 8000 ct).length) else none }

/-- `SecFilingParser.parse` from the extracted text blocks onward. -/
def secParse (blocks : List Text) : List SecNode :=
  (secSections blocks).flatMap secNodesOf

/-! ### Transcript parser -/

/-- One speaker segment produced by `TranscriptParser._split_by_speaker`. -/
structure Segment where
  speaker : String
  role : String
  text : Text
  startPos : ℕ

/-- One emitted `TextNode` of the transcript parser. -/
structure TNode where
  text : Text
  speaker : String
  role : String
  sectionTag : String
  chunkIndex : Option (ℕ × ℕ)

/-- The per-segment body of `TranscriptParser.parse`: strip, drop segments
below `MIN_SEGMENT_LENGTH = 50`, tag prepared-remarks vs Q&A by position
against the Q&A boundary, split at `MAX_NODE_LENGTH = 6000`. -/
def transcriptNodesOf (qaStart : Option ℕ) (s : Segment) : List TNode :=
  let st := stripText s.text
  if st.length < 50 then []
  else
    (splitLongText 6000 st).enum.map fun ic =>
      { text := ic.2
        speaker := s.speaker
        role := s.role
        sectionTag :=
          match qaStart with
          | some q => if q ≤ s.startPos then "q_and_a" else "prepared_remarks"
          | none => "prepared_remarks"
        chunkIndex :=
          if 1 < (splitLongText 6000 st).length
          then some (ic.1, (splitLongText 6000 st).length) else none }

/-- `TranscriptParser.parse` from the speaker segmentation onward. -/
def transcriptNodes (qaStart : Option ℕ) (segs : List Segment) : List TNode :=
  segs.flatMap (transcriptNodesOf qaStart)

end Seg

end Hermes

/-! ## Theorems -/

open Hermes Hermes.Cache Hermes.Limiter Hermes.Retry Hermes.Seg

/-- The value returned by `get` depends only on the two files of the
requested entry. -/
theorem cache_getVal_congr (hash : String → String) (fs fs' : FS) (now : ℚ)
    (ns key : String)
    (hd : fs.dataFiles ns (hash key) = fs'.dataFiles ns (hash key))
    (hm : fs.metaFiles ns (hash key) = fs'.metaFiles ns (hash key)) :
    getVal hash fs now ns key = getVal hash fs' now ns key := by
  simp only [Cache.getVal, Cache.get]
  rw [hd, hm]
  cases hdd : fs'.dataFiles ns (hash key) with
  | none => rfl
  | some data =>
    cases hmm : fs'.metaFiles ns (hash key) with
    | none => rfl
    | some m =>
      cases m with
      | notJson => rfl
      | nonDict => rfl
      | dict created ttl =>
        simp only [readMeta]
        cases hexp : isExpired now created ttl with
        | error e => rfl
        | ok b => cases b <;> rfl

/-- C1.  Cache round-trip with TTL: after `put(namespace, key, data,
ttl_seconds)` at time `tPut`, a `get` at time `tGet` returns exactly the
stored bytes whenever `tGet - tPut ≤ ttl_seconds` (the expiry comparison in
`_is_expired` is strict), reports absent once `tGet - tPut` exceeds
`ttl_seconds`, and a permanent entry (`ttl_seconds = None`) is returned
after arbitrarily long delay. -/
theorem cache_roundtrip_ttl (hash : String → String) (fs : FS) (ns key : String)
    (data : Bytes) (tPut tGet : ℚ) :
    (∀ T : ℚ, tGet - tPut ≤ T →
      getVal hash (put hash fs tPut ns key data (some T)) tGet ns key =
        .ok (some data)) ∧
    (∀ T : ℚ, T < tGet - tPut →
      getVal hash (put hash fs tPut ns key data (some T)) tGet ns key =
        .ok none) ∧
    getVal hash (put hash fs tPut ns key data none) tGet ns key =
      .ok (some data) := by
  refine ⟨fun T h => ?_, fun T h => ?_, ?_⟩
  · have hdec : decide (tGet - tPut > T) = false := decide_eq_false (not_lt.mpr h)
    simp [Cache.getVal, Cache.get, Cache.put, readMeta, isExpired, hdec, Except.map]
  · have hdec : decide (tGet - tPut > T) = true := decide_eq_true h
    simp [Cache.getVal, Cache.get, Cache.put, readMeta, isExpired, hdec, Except.map]
  · simp [Cache.getVal, Cache.get, Cache.put, readMeta, isExpired, Except.map]

/-- Witness for `cache_roundtrip_ttl` at a concrete instance: a 3-byte
payload stored at time 0 with `ttl_seconds = 2` is retrievable at time 2,
absent at time 3; a permanent entry is retrievable at time `10 ^ 9`. -/
theorem cache_roundtrip_ttl_witness :
    getVal (fun k => k) (put (fun k => k) emptyFS 0 ("ns") ("k") [1, 2, 3] (some 2))
        2 ("ns") ("k") = .ok (some [1, 2, 3]) ∧
    getVal (fun k => k) (put (fun k => k) emptyFS 0 ("ns") ("k") [1, 2, 3] (some 2))
        3 ("ns") ("k") = .ok none ∧
    getVal (fun k => k) (put (fun k => k) emptyFS 0 ("ns") ("k") [1, 2, 3] none)
        1000000000 ("ns") ("k") = .ok (some [1, 2, 3]) :=
  ⟨(cache_roundtrip_ttl (fun k => k) emptyFS ("ns") ("k") [1, 2, 3] 0 2).1 2
      (by norm_num),
    (cache_roundtrip_ttl (fun k => k) emptyFS ("ns") ("k") [1, 2, 3] 0 3).2.1 2
      (by norm_num),
    (cache_roundtrip_ttl (fun k => k) emptyFS ("ns") ("k") [1, 2, 3] 0
        1000000000).2.2⟩

/-- C8.  Namespace isolation: a `put` into one namespace does not change
what `get` returns for any key of a different namespace; `clear_namespace`
on one namespace leaves every entry of a different namespace untouched; and
the same key stored in two distinct namespaces holds the two independent
values. -/
theorem cache_namespace_isolation (hash : String → String) (fs : FS)
    (ns1 ns2 key key' : String) (data : Bytes) (ttl : Option ℚ)
    (tPut tGet : ℚ) (hns : ns1 ≠ ns2) :
    getVal hash (put hash fs tPut ns1 key data ttl) tGet ns2 key' =
      getVal hash fs tGet ns2 key' ∧
    getVal hash (clearNamespace fs ns1) tGet ns2 key' =
      getVal hash fs tGet ns2 key' ∧
    (∀ d1 d2 : Bytes, ∀ t1 t2 : ℚ,
      getVal hash (put hash (put hash fs t1 ns1 key d1 none) t2 ns2 key d2 none)
          tGet ns1 key = .ok (some d1) ∧
      getVal hash (put hash (put hash fs t1 ns1 key d1 none) t2 ns2 key d2 none)
          tGet ns2 key = .ok (some d2)) := by
  have hns' : ns2 ≠ ns1 := fun hc => hns hc.symm
  refine ⟨?_, ?_, fun d1 d2 t1 t2 => ⟨?_, ?_⟩⟩
  · exact cache_getVal_congr hash _ fs tGet ns2 key' (by simp [Cache.put, hns'])
      (by simp [Cache.put, hns'])
  · exact cache_getVal_congr hash _ fs tGet ns2 key' (by simp [clearNamespace, hns'])
      (by simp [clearNamespace, hns'])
  · simp [Cache.getVal, Cache.get, Cache.put, readMeta, isExpired, hns, Except.map]
  · simp [Cache.getVal, Cache.get, Cache.put, readMeta, isExpired, hns', Except.map]

/-- Witness for `cache_namespace_isolation` at concrete namespaces `a`, `b`
(key `k`, payload `[7]`). -/
theorem cache_namespace_isolation_witness :
    getVal (fun k => k) (put (fun k => k) emptyFS 0 ("a") ("k") [7] none) 1
        ("b") ("k") = getVal (fun k => k) emptyFS 1 ("b") ("k") ∧
    getVal (fun k => k) (clearNamespace emptyFS ("a")) 1 ("b") ("k") =
      getVal (fun k => k) emptyFS 1 ("b") ("k") ∧
    getVal (fun k => k)
        (put (fun k => k) (put (fun k => k) emptyFS 0 ("a") ("k") [7] none) 0
          ("b") ("k") [8] none) 1 ("a") ("k") = .ok (some [7]) ∧
    getVal (fun k => k)
        (put (fun k => k) (put (fun k => k) emptyFS 0 ("a") ("k") [7] none) 0
          ("b") ("k") [8] none) 1 ("b") ("k") = .ok (some [8]) := by
  have h := cache_namespace_isolation (fun k => k) emptyFS ("a") ("b") ("k")
    ("k") [7] none 0 1 (by decide)
  exact ⟨h.1, h.2.1, (h.2.2 [7] [8] 0 0).1, (h.2.2 [7] [8] 0 0).2⟩

/-- C3 (amended).  Unreadable / JSON-undecodable metadata is a soft miss:
`get` returns `None`, removes both files of the entry, and does not raise;
`has` returns `False` and does not raise, but leaves the files in place
(`has` has no removal call on its corrupt-metadata path). -/
theorem cache_corruption_soft_miss (hash : String → String) (fs : FS)
    (ns key : String) (now : ℚ) (data : Bytes)
    (hd : fs.dataFiles ns (hash key) = some data)
    (hm : fs.metaFiles ns (hash key) = some .notJson) :
    Cache.get hash fs now ns key = .ok (none, removePair fs ns (hash key)) ∧
    (removePair fs ns (hash key)).dataFiles ns (hash key) = none ∧
    (removePair fs ns (hash key)).metaFiles ns (hash key) = none ∧
    Cache.has hash fs now ns key = .ok (false, fs) := by
  refine ⟨?_, by simp [removePair], by simp [removePair], ?_⟩
  · simp only [Cache.get]
    rw [hd, hm]
    rfl
  · simp only [Cache.has]
    rw [hd, hm]
    rfl

/-- Witness for `cache_corruption_soft_miss`: a concrete one-entry cache
whose metadata file fails JSON decoding. -/
theorem cache_corruption_soft_miss_witness :
    Cache.get (fun k => k) corruptMetaFS 0 ("n") ("k") =
      .ok (none, removePair corruptMetaFS ("n") ("k")) ∧
    Cache.has (fun k => k) corruptMetaFS 0 ("n") ("k") = .ok (false, corruptMetaFS) := by
  have h := cache_corruption_soft_miss (fun k => k) corruptMetaFS ("n") ("k") 0 [0]
    (by rfl) (by rfl)
  exact ⟨h.1, h.2.2.2⟩

/-- C3 counterexample.  The claim says corrupt metadata "never raises an
exception to the caller", for *any* meta content that does not parse into a
valid `{created_at, ttl_seconds}` record.  But for a metadata file that
decodes as the JSON object `{"ttl_seconds": 5}` (no `created_at`),
`_read_meta` succeeds, `_is_expired` evaluates `meta["created_at"]`, and
`get` raises `KeyError` to the caller. -/
theorem cache_corruption_counterexample :
    getVal (fun k => k) schemaBrokenFS 0 ("n") ("k") = .error .keyError := by
  rfl

/-- `tryAcquire` leaves the configured rate and period unchanged and sets
`lastRefill` to the attempt time. -/
theorem tryAcquire_fields (l : Limiter.State) (t : ℚ) :
    (tryAcquire l t).2.rate = l.rate ∧ (tryAcquire l t).2.per = l.per ∧
      (tryAcquire l t).2.lastRefill = t := by
  simp only [Limiter.tryAcquire]
  by_cases h : 1 ≤ (Limiter.refill l t).tokens
  · rw [if_pos h]; exact ⟨rfl, rfl, rfl⟩
  · rw [if_neg h]; exact ⟨rfl, rfl, rfl⟩

/-- Refilled tokens never exceed the configured rate. -/
theorem refill_tokens_le (l : Limiter.State) (t : ℚ) :
    (Limiter.refill l t).tokens ≤ l.rate :=
  min_le_left _ _

/-- Refilled tokens stay nonnegative under a monotonic clock. -/
theorem refill_tokens_nonneg (l : Limiter.State) (t : ℚ) (hr : 0 < l.rate)
    (hp : 0 < l.per) (h0 : 0 ≤ l.tokens) (hm : l.lastRefill ≤ t) :
    0 ≤ (Limiter.refill l t).tokens := by
  refine le_min hr.le (add_nonneg h0 (mul_nonneg (by linarith) ?_))
  exact div_nonneg hr.le hp.le

/-- One attempt preserves `0 ≤ tokens ≤ rate`. -/
theorem tryAcquire_inv (l : Limiter.State) (t : ℚ) (hr : 0 < l.rate)
    (hp : 0 < l.per) (h0 : 0 ≤ l.tokens) (hm : l.lastRefill ≤ t) :
    0 ≤ (tryAcquire l t).2.tokens ∧ (tryAcquire l t).2.tokens ≤ l.rate := by
  have hn := refill_tokens_nonneg l t hr hp h0 hm
  have hl := refill_tokens_le l t
  simp only [Limiter.tryAcquire]
  by_cases h : 1 ≤ (Limiter.refill l t).tokens
  · rw [if_pos h]
    refine ⟨?_, ?_⟩
    · show 0 ≤ (Limiter.refill l t).tokens - 1
      linarith
    · show (Limiter.refill l t).tokens - 1 ≤ l.rate
      linarith
  · rw [if_neg h]
    exact ⟨hn, hl⟩

/-- The grants-plus-tokens potential can only decrease across one attempt:
the refill adds at most `elapsed * rate / per` and a grant moves exactly one
unit from tokens to grants. -/
theorem tryAcquire_drain (l : Limiter.State) (t : ℚ) :
    (tryAcquire l t).2.tokens + (if (tryAcquire l t).1 then (1 : ℚ) else 0) ≤
      l.tokens + (t - l.lastRefill) * (l.rate / l.per) := by
  have hmr : (Limiter.refill l t).tokens ≤
      l.tokens + (t - l.lastRefill) * (l.rate / l.per) := min_le_right _ _
  simp only [Limiter.tryAcquire]
  split <;> rename_i h <;> simp <;> linarith

/-- The grant count threading through `runCount` does not influence the
resulting state. -/
theorem runCount_fst_count_irrel (us : List ℚ) : ∀ (s : Limiter.State) (n m : ℕ),
    (us.foldl Limiter.step (s, n)).1 = (us.foldl Limiter.step (s, m)).1 := by
  induction us with
  | nil => intro s n m; rfl
  | cons u us ihu =>
    intro s n m
    simp only [List.foldl_cons, Limiter.step]
    exact ihu _ _ _

/-- Unfolding one attempt of `runAttempts`. -/
theorem runAttempts_cons (l : Limiter.State) (t : ℚ) (ts : List ℚ) :
    runAttempts l (t :: ts) = runAttempts (tryAcquire l t).2 ts := by
  unfold Limiter.runAttempts Limiter.runCount
  simp only [List.foldl_cons]
  have h := runCount_fst_count_irrel ts (tryAcquire l t).2
    (0 + if (tryAcquire l t).1 then 1 else 0) 0
  simpa [Limiter.step] using h

/-- Invariant of a whole attempt sequence: rate and period are constant and
`0 ≤ tokens ≤ rate` holds at the end (hence, by instantiating prefixes, at
every intermediate point). -/
theorem runAttempts_inv (ts : List ℚ) : ∀ l : Limiter.State, 0 < l.rate →
    0 < l.per → 0 ≤ l.tokens → l.tokens ≤ l.rate →
    List.Chain (fun a b => a ≤ b) l.lastRefill ts →
    (runAttempts l ts).rate = l.rate ∧ (runAttempts l ts).per = l.per ∧
      0 ≤ (runAttempts l ts).tokens ∧ (runAttempts l ts).tokens ≤ l.rate := by
  induction ts with
  | nil => intro l _ _ h0 h1 _; exact ⟨rfl, rfl, h0, h1⟩
  | cons t ts ih =>
    intro l hr hp h0 h1 hchain
    rcases List.chain_cons.mp hchain with ⟨hle, hchain2⟩
    obtain ⟨hfr, hfp, hflast⟩ := tryAcquire_fields l t
    have hinv := tryAcquire_inv l t hr hp h0 hle
    rw [runAttempts_cons]
    have hmain := ih (tryAcquire l t).2 (by rw [hfr]; exact hr)
      (by rw [hfp]; exact hp) hinv.1 (by rw [hfr]; exact hinv.2)
      (by rw [hflast]; exact hchain2)
    rw [hfr, hfp] at hmain
    exact hmain

/-- C4.  Token invariant of the rate limiter: for every attempt sequence
under a monotonic clock, `0 ≤ tokens ≤ rate` holds after any sequence of
`acquire` iterations; a refill caps tokens at the configured rate no matter
how long the idle gap was, tokens never decrease across a refill, and a
granted acquisition consumes exactly `1.0` while an ungranted attempt
consumes nothing. -/
theorem limiter_token_invariant (l : Limiter.State) (ts : List ℚ)
    (hr : 0 < l.rate) (hp : 0 < l.per) (h0 : 0 ≤ l.tokens)
    (h1 : l.tokens ≤ l.rate)
    (hchain : List.Chain (fun a b => a ≤ b) l.lastRefill ts) :
    (0 ≤ (runAttempts l ts).tokens ∧ (runAttempts l ts).tokens ≤ l.rate) ∧
    (∀ now, (Limiter.refill l now).tokens ≤ l.rate) ∧
    (∀ now, l.lastRefill ≤ now → l.tokens ≤ (Limiter.refill l now).tokens) ∧
    (∀ now, (tryAcquire l now).1 = true →
      (tryAcquire l now).2.tokens = (Limiter.refill l now).tokens - 1) ∧
    (∀ now, (tryAcquire l now).1 = false →
      (tryAcquire l now).2.tokens = (Limiter.refill l now).tokens) := by
  have hinv := runAttempts_inv ts l hr hp h0 h1 hchain
  refine ⟨⟨hinv.2.2.1, hinv.2.2.2⟩, fun now => refill_tokens_le l now,
    fun now hle => ?_, fun now hg => ?_, fun now hg => ?_⟩
  · refine le_min h1 ?_
    have : 0 ≤ (now - l.lastRefill) * (l.rate / l.per) :=
      mul_nonneg (by linarith) (div_nonneg hr.le hp.le)
    linarith
  · simp only [Limiter.tryAcquire] at hg ⊢
    by_cases h : 1 ≤ (Limiter.refill l now).tokens
    · rw [if_pos h]
    · rw [if_neg h] at hg
      simp at hg
  · simp only [Limiter.tryAcquire] at hg ⊢
    by_cases h : 1 ≤ (Limiter.refill l now).tokens
    · rw [if_pos h] at hg
      simp at hg
    · rw [if_neg h]

/-- Witness for `limiter_token_invariant`: a limiter at 2 tokens per 1
second, attempts at times 0 and 1. -/
theorem limiter_token_invariant_witness :
    (0 ≤ (runAttempts (Limiter.init 2 1 0) [0, 1]).tokens ∧
      (runAttempts (Limiter.init 2 1 0) [0, 1]).tokens ≤ (Limiter.init 2 1 0).rate) ∧
    (∀ now, (Limiter.refill (Limiter.init 2 1 0) now).tokens ≤ (Limiter.init 2 1 0).rate) :=
  have h := limiter_token_invariant (Limiter.init 2 1 0) [0, 1]
    (by norm_num [Limiter.init]) (by norm_num [Limiter.init])
    (by norm_num [Limiter.init]) (by norm_num [Limiter.init])
    (by norm_num [Limiter.init, List.chain_cons])
  ⟨h.1, h.2.1⟩

/-- Potential bound for the grant counter: across any attempt sequence
under a monotonic clock, `grants + tokens` grows at most by
`elapsed * rate / per`. -/
theorem runCount_potential (ts : List ℚ) : ∀ p : Limiter.State × ℕ,
    0 < p.1.rate → 0 < p.1.per → 0 ≤ p.1.tokens →
    List.Chain (fun a b => a ≤ b) p.1.lastRefill ts →
    (ts.foldl Limiter.step p).1.rate = p.1.rate ∧
    (ts.foldl Limiter.step p).1.per = p.1.per ∧
    0 ≤ (ts.foldl Limiter.step p).1.tokens ∧
    ((ts.foldl Limiter.step p).2 : ℚ) + (ts.foldl Limiter.step p).1.tokens ≤
      (p.2 : ℚ) + p.1.tokens +
        ((ts.foldl Limiter.step p).1.lastRefill - p.1.lastRefill) *
          (p.1.rate / p.1.per) := by
  induction ts with
  | nil =>
    intro p hr hp h0 _
    refine ⟨rfl, rfl, h0, ?_⟩
    simp
  | cons t ts ih =>
    intro p hr hp h0 hchain
    rcases List.chain_cons.mp hchain with ⟨hle, hchain2⟩
    obtain ⟨hfr, hfp, hflast⟩ := tryAcquire_fields p.1 t
    have hdrain := tryAcquire_drain p.1 t
    have htok : 0 ≤ (tryAcquire p.1 t).2.tokens :=
      (tryAcquire_inv p.1 t hr hp h0 hle).1
    simp only [List.foldl_cons]
    have hstep1 : (Limiter.step p t).1 = (tryAcquire p.1 t).2 := rfl
    have hstep2 : ((Limiter.step p t).2 : ℚ) =
        (p.2 : ℚ) + (if (tryAcquire p.1 t).1 then (1 : ℚ) else 0) := by
      simp only [Limiter.step]
      cases hg : (tryAcquire p.1 t).1 <;> simp
    have hmain := ih (Limiter.step p t) (by rw [hstep1, hfr]; exact hr)
      (by rw [hstep1, hfp]; exact hp) (by rw [hstep1]; exact htok)
      (by rw [hstep1, hflast]; exact hchain2)
    rw [hstep1, hfr, hfp, hflast, hstep2] at hmain
    refine ⟨hmain.1, hmain.2.1, hmain.2.2.1, ?_⟩
    have hfinal := hmain.2.2.2
    have hexp : ((ts.foldl Limiter.step (Limiter.step p t)).1.lastRefill - t) *
          (p.1.rate / p.1.per) +
        (t - p.1.lastRefill) * (p.1.rate / p.1.per) =
        ((ts.foldl Limiter.step (Limiter.step p t)).1.lastRefill -
          p.1.lastRefill) * (p.1.rate / p.1.per) := by ring
    linarith

/-- C9.  Limiter conservation: however the concurrent `acquire` loop
iterations interleave (any monotone sequence of lock-protected attempts,
starting from a freshly constructed limiter), `N` grants by the time of the
last attempt force `elapsed ≥ (N - rate) * per / rate`; equivalently the
grant count never exceeds `rate + elapsed * rate / per`.  This is the
safety half of the check-sleep-recheck loop: a sleeping caller re-validates
tokens after waking, so a grant only ever happens inside `tryAcquire`. -/
theorem limiter_conservation (rate per t0 : ℚ) (ts : List ℚ)
    (hr : 0 < rate) (hp : 0 < per)
    (hchain : List.Chain (fun a b => a ≤ b) t0 ts) :
    ((runCount (Limiter.init rate per t0) ts).2 : ℚ) ≤
      rate + ((runCount (Limiter.init rate per t0) ts).1.lastRefill - t0) *
        (rate / per) ∧
    (((runCount (Limiter.init rate per t0) ts).2 : ℚ) - rate) * (per / rate) ≤
      (runCount (Limiter.init rate per t0) ts).1.lastRefill - t0 := by
  have h := runCount_potential ts (Limiter.init rate per t0, 0) hr hp hr.le hchain
  have h1 : ((runCount (Limiter.init rate per t0) ts).2 : ℚ) ≤
      rate + ((runCount (Limiter.init rate per t0) ts).1.lastRefill - t0) *
        (rate / per) := by
    have := h.2.2.2
    have h0 := h.2.2.1
    simp only [Limiter.runCount, Limiter.init] at *
    push_cast at *
    linarith
  refine ⟨h1, ?_⟩
  have hstep : ((runCount (Limiter.init rate per t0) ts).2 : ℚ) - rate ≤
      ((runCount (Limiter.init rate per t0) ts).1.lastRefill - t0) *
        (rate / per) := by linarith
  calc (((runCount (Limiter.init rate per t0) ts).2 : ℚ) - rate) * (per / rate)
      ≤ (((runCount (Limiter.init rate per t0) ts).1.lastRefill - t0) *
          (rate / per)) * (per / rate) :=
        mul_le_mul_of_nonneg_right hstep (div_nonneg hp.le hr.le)
    _ = (runCount (Limiter.init rate per t0) ts).1.lastRefill - t0 := by
        field_simp

/-- Witness for `limiter_conservation`: limiter at 1 token per second,
attempts at times 0 and 1. -/
theorem limiter_conservation_witness :
    ((runCount (Limiter.init 1 1 0) [0, 1]).2 : ℚ) ≤
      1 + ((runCount (Limiter.init 1 1 0) [0, 1]).1.lastRefill - 0) * (1 / 1) ∧
    (((runCount (Limiter.init 1 1 0) [0, 1]).2 : ℚ) - 1) * (1 / 1) ≤
      (runCount (Limiter.init 1 1 0) [0, 1]).1.lastRefill - 0 :=
  limiter_conservation 1 1 0 [0, 1] (by norm_num) (by norm_num)
    (by norm_num [List.chain_cons])

/-- Consuming one token per attempt at a fixed instant: from a bucket of
`rate - j` tokens, `k` further attempts at the construction time all grant
when `j + k ≤ rate`. -/
theorem runCount_warm_aux (k : ℕ) : ∀ (rate per t0 j : ℚ) (n0 : ℕ), 0 ≤ j →
    j + k ≤ rate →
    (List.replicate k t0).foldl Limiter.step
        ({ rate := rate, per := per, tokens := rate - j, lastRefill := t0 }, n0) =
      ({ rate := rate, per := per, tokens := rate - (j + k), lastRefill := t0 }, n0 + k) := by
  induction k with
  | zero =>
    intro rate per t0 j n0 hj hjk
    simp
  | succ k ih =>
    intro rate per t0 j n0 hj hjk
    have hcast : ((k : ℚ) + 1) = ((k + 1 : ℕ) : ℚ) := by push_cast; ring
    have hle : j + 1 + k ≤ rate := by push_cast at hjk ⊢; linarith
    have htok : rate - j ≤ rate := by linarith
    have hone : 1 ≤ rate - j := by push_cast at hjk; linarith
    have hrefill : Limiter.refill
        { rate := rate, per := per, tokens := rate - j, lastRefill := t0 } t0 =
        { rate := rate, per := per, tokens := rate - j, lastRefill := t0 } := by
      simp [Limiter.refill, min_eq_right htok]
    have hstep : Limiter.step
        ({ rate := rate, per := per, tokens := rate - j, lastRefill := t0 }, n0) t0 =
        ({ rate := rate, per := per, tokens := rate - (j + 1), lastRefill := t0 }, n0 + 1) := by
      simp only [Limiter.step, Limiter.tryAcquire, hrefill]
      rw [if_pos hone]
      simp
      ring
    rw [List.replicate_succ, List.foldl_cons, hstep]
    have := ih rate per t0 (j + 1) (n0 + 1) (by linarith) hle
    rw [this]
    congr 1
    · congr 1
      push_cast
      ring
    · omega

/-- C10.  A freshly constructed limiter starts with a full bucket
(`tokens = rate`), so when no time elapses between construction and the
attempts, the first `k ≤ ⌊rate⌋` acquire calls are all granted on their
first lock-protected check (no sleep), each consuming exactly one token. -/
theorem limiter_starts_full (rate per t0 : ℚ) (k : ℕ) (hk : (k : ℚ) ≤ rate) :
    (runCount (Limiter.init rate per t0) (List.replicate k t0)).2 = k ∧
    (runCount (Limiter.init rate per t0) (List.replicate k t0)).1.tokens =
      rate - k := by
  have h := runCount_warm_aux k rate per t0 0 0 le_rfl (by linarith)
  have hinit : Limiter.init rate per t0 =
      { rate := rate, per := per, tokens := rate - 0, lastRefill := t0 } := by
    simp [Limiter.init]
  rw [Limiter.runCount, hinit, h]
  constructor
  · simp
  · simp

/-- Witness for `limiter_starts_full`: a limiter at rate 3 grants three
immediate acquisitions at construction time, draining the bucket to 0. -/
theorem limiter_starts_full_witness :
    (runCount (Limiter.init 3 1 0) (List.replicate 3 0)).2 = 3 ∧
    (runCount (Limiter.init 3 1 0) (List.replicate 3 0)).1.tokens = 0 := by
  have h := limiter_starts_full 3 1 0 3 (by norm_num)
  exact ⟨h.1, by rw [h.2]; norm_num⟩

/-- Lowercase ASCII letters are not digits. -/
theorem isLower_not_isDigit (c : Char) (h : c.isLower = true) : c.isDigit = false := by
  simp [Char.isLower] at h
  simp [Char.isDigit]
  intro h1
  obtain ⟨ha, hb⟩ := h
  have hb' : c.val.toNat ≤ 122 := hb
  have ha' : (97 : Nat) ≤ c.val.toNat := ha
  have h57 : (57 : UInt32).toNat = 57 := rfl
  show (57 : UInt32).toNat < c.val.toNat
  omega

theorem isDigit_not_isLower (c : Char) (h : c.isDigit = true) : c.isLower = false := by
  simp [Char.isDigit] at h
  simp [Char.isLower]
  intro h1
  obtain ⟨ha, hb⟩ := h
  have hb' : c.val.toNat ≤ 57 := hb
  have h1' : (97 : Nat) ≤ c.val.toNat := h1
  have h122 : (122 : UInt32).toNat = 122 := rfl
  show (122 : UInt32).toNat < c.val.toNat
  omega

theorem isLower_ne_dot (c : Char) (h : c.isLower = true) : c ≠ '.' := by
  intro hc
  subst hc
  simp [Char.isLower] at h

theorem takeWhile_append_all (p : Char → Bool) (l1 l2 : List Char)
    (h1 : ∀ c ∈ l1, p c = true) (h2 : ∀ c, l2.head? = some c → p c = false) :
    (l1 ++ l2).takeWhile p = l1 := by
  induction l1 with
  | nil =>
    cases l2 with
    | nil => rfl
    | cons c cs => simp [List.takeWhile_cons, h2 c rfl]
  | cons a l1 ih =>
    simp only [List.cons_append, List.takeWhile_cons, h1 a (by simp)]
    simp [ih (fun c hc => h1 c (by simp [hc]))]

theorem dropWhile_append_all (p : Char → Bool) (l1 l2 : List Char)
    (h1 : ∀ c ∈ l1, p c = true) (h2 : ∀ c, l2.head? = some c → p c = false) :
    (l1 ++ l2).dropWhile p = l2 := by
  induction l1 with
  | nil =>
    cases l2 with
    | nil => rfl
    | cons c cs => simp [List.dropWhile_cons, h2 c rfl]
  | cons a l1 ih =>
    simp only [List.cons_append, List.dropWhile_cons, h1 a (by simp)]
    simp [ih (fun c hc => h1 c (by simp [hc]))]

theorem matchNumber_render (ds us rest : List Char) (hds : ds ≠ [])
    (hd : ∀ c ∈ ds, c.isDigit = true) (hus : us ≠ [])
    (hu : ∀ c ∈ us, c.isLower = true) :
    matchNumber (ds ++ (us ++ rest)) =
      some ((digitsToNat ds : ℚ), us ++ rest) := by
  have husrest : ∀ c, (us ++ rest).head? = some c → c.isDigit = false := by
    intro c hc
    cases us with
    | nil => exact absurd rfl hus
    | cons u us' =>
      simp at hc
      subst hc
      exact isLower_not_isDigit u (hu u (by simp))
  have htw : (ds ++ (us ++ rest)).takeWhile Char.isDigit = ds :=
    takeWhile_append_all _ _ _ hd husrest
  have hdw : (ds ++ (us ++ rest)).dropWhile Char.isDigit = us ++ rest :=
    dropWhile_append_all _ _ _ hd husrest
  unfold Retry.matchNumber
  rw [htw, hdw]
  rw [if_neg (by simpa using hds)]
  cases hus2 : us with
  | nil => exact absurd hus2 hus
  | cons u us' =>
    have hune : u ≠ '.' := isLower_ne_dot u (hu u (by simp [hus2]))
    simp only [List.cons_append]
    split
    · rename_i r heq
      injection heq with h1 h2
      exact absurd h1 hune
    · simp

theorem matchToken_render (ds us rest : List Char) (hds : ds ≠ [])
    (hd : ∀ c ∈ ds, c.isDigit = true) (hus : us ≠ [])
    (hu : ∀ c ∈ us, c.isLower = true)
    (hrest : ∀ c, rest.head? = some c → c.isDigit = true) :
    matchToken (ds ++ (us ++ rest)) = some ((digitsToNat ds : ℚ), us, rest) := by
  have hrestlow : ∀ c, rest.head? = some c → c.isLower = false := by
    intro c hc
    exact isDigit_not_isLower c (hrest c hc)
  have htwl : (us ++ rest).takeWhile Char.isLower = us :=
    takeWhile_append_all _ _ _ hu hrestlow
  have hdwl : (us ++ rest).dropWhile Char.isLower = rest :=
    dropWhile_append_all _ _ _ hu hrestlow
  unfold Retry.matchToken
  rw [matchNumber_render ds us rest hds hd hus hu]
  simp only [htwl, hdwl]
  rw [if_neg (by simpa using hus)]

theorem renderTokens_head_digit (ts : List (List Char × List Char))
    (hwf : ∀ t ∈ ts, t.1 ≠ [] ∧ (∀ c ∈ t.1, c.isDigit = true)) :
    ∀ c, (renderTokens ts).head? = some c → c.isDigit = true := by
  intro c hc
  cases ts with
  | nil => simp [Retry.renderTokens] at hc
  | cons t ts' =>
    obtain ⟨hne, hdig⟩ := hwf t (by simp)
    cases hd : t.1 with
    | nil => exact absurd hd hne
    | cons d ds' =>
      have hcd : d = c := by simpa [Retry.renderTokens, hd] using hc
      subst hcd
      exact hdig d (by simp [hd])

theorem scanGo_render (ts : List (List Char × List Char)) : ∀ fuel : ℕ,
    (∀ t ∈ ts, t.1 ≠ [] ∧ (∀ c ∈ t.1, c.isDigit = true) ∧ t.2 ≠ [] ∧
      (∀ c ∈ t.2, c.isLower = true)) →
    (renderTokens ts).length ≤ fuel →
    scanGo fuel (renderTokens ts) =
      ts.map (fun t => ((digitsToNat t.1 : ℚ), t.2)) := by
  induction ts with
  | nil =>
    intro fuel _ _
    cases fuel <;> rfl
  | cons t ts ih =>
    intro fuel hwf hfuel
    obtain ⟨hds, hdig, hus, hlow⟩ := hwf t (by simp)
    have hrender : renderTokens (t :: ts) = t.1 ++ (t.2 ++ renderTokens ts) := by
      simp [Retry.renderTokens]
    have hmt : matchToken (t.1 ++ (t.2 ++ renderTokens ts)) =
        some ((digitsToNat t.1 : ℚ), t.2, renderTokens ts) :=
      matchToken_render t.1 t.2 (renderTokens ts) hds hdig hus hlow
        (renderTokens_head_digit ts (fun u hu => ⟨(hwf u (by simp [hu])).1,
          (hwf u (by simp [hu])).2.1⟩))
    cases hd : t.1 with
    | nil => exact absurd hd hds
    | cons d ds' =>
      have hlen : (renderTokens (t :: ts)).length =
          t.1.length + t.2.length + (renderTokens ts).length := by
        simp [Retry.renderTokens]
        ring
      cases fuel with
      | zero =>
        rw [hlen] at hfuel
        rw [hd] at hfuel
        simp at hfuel
      | succ f =>
        rw [hd] at hmt
        simp only [List.cons_append] at hmt
        rw [hrender, hd]
        simp only [List.cons_append, Retry.scanGo, List.append_eq]
        rw [hmt]
        have hfuel2 : (renderTokens ts).length ≤ f := by
          rw [hlen, hd] at hfuel
          simp at hfuel
          omega
        show ((digitsToNat (d :: ds') : ℚ), t.2) :: scanGo f (renderTokens ts) =
          List.map (fun u => ((digitsToNat u.1 : ℚ), u.2)) (t :: ts)
        rw [ih f (fun u hu => hwf u (by simp [hu])) hfuel2]
        simp [hd]

theorem foldl_add_unitSeconds (l : List (ℚ × List Char)) : ∀ a : ℚ,
    l.foldl (fun acc t => acc + unitSeconds t.2 t.1) a =
      a + (l.map (fun t => unitSeconds t.2 t.1)).sum := by
  induction l with
  | nil => intro a; simp
  | cons t ts ih =>
    intro a
    simp only [List.foldl_cons, List.map_cons, List.sum_cons, ih]
    ring

theorem parseGoDuration_render (ts : List (List Char × List Char))
    (hwf : ∀ t ∈ ts, t.1 ≠ [] ∧ (∀ c ∈ t.1, c.isDigit = true) ∧ t.2 ≠ [] ∧
      (∀ c ∈ t.2, c.isLower = true)) :
    parseGoDuration (renderTokens ts) =
      (ts.map (fun t => unitSeconds t.2 (digitsToNat t.1))).sum := by
  unfold Retry.parseGoDuration Retry.scanTokens
  rw [scanGo_render ts (renderTokens ts).length hwf le_rfl]
  rw [foldl_add_unitSeconds]
  simp [List.map_map]
  congr 1

theorem unitSeconds_h (v : ℚ) : unitSeconds ['h'] v = v * 3600 := by
  simp [Retry.unitSeconds]

theorem unitSeconds_m (v : ℚ) : unitSeconds ['m'] v = v * 60 := by
  unfold Retry.unitSeconds
  rw [if_neg (by decide), if_pos rfl]

theorem unitSeconds_s (v : ℚ) : unitSeconds ['s'] v = v := by
  unfold Retry.unitSeconds
  rw [if_neg (by decide), if_neg (by decide), if_pos rfl]

theorem unitSeconds_ms (v : ℚ) : unitSeconds ['m', 's'] v = v / 1000 := by
  unfold Retry.unitSeconds
  rw [if_neg (by decide), if_neg (by decide), if_neg (by decide), if_pos rfl]

theorem go_duration_values :
    parseGoDuration ("6m2s").toList = 362 ∧
    parseGoDuration ("1h30m").toList = 5400 ∧
    parseGoDuration ("500ms").toList = 1 / 2 ∧
    parseGoDuration ("53s").toList = 53 ∧
    (∀ ts : List (List Char × List Char),
      (∀ t ∈ ts, t.1 ≠ [] ∧ (∀ c ∈ t.1, c.isDigit = true) ∧ t.2 ≠ [] ∧
        (∀ c ∈ t.2, c.isLower = true)) →
      parseGoDuration (renderTokens ts) =
        (ts.map (fun t => unitSeconds t.2 (digitsToNat t.1))).sum) := by
  refine ⟨?_, ?_, ?_, ?_, fun ts hwf => parseGoDuration_render ts hwf⟩
  · rw [show ("6m2s").toList = renderTokens [(['6'], ['m']), (['2'], ['s'])] from rfl,
      parseGoDuration_render _ (by decide)]
    simp [unitSeconds_m, unitSeconds_s,
      show digitsToNat ['6'] = 6 from rfl, show digitsToNat ['2'] = 2 from rfl]
    norm_num
  · rw [show ("1h30m").toList = renderTokens [(['1'], ['h']), (['3', '0'], ['m'])] from rfl,
      parseGoDuration_render _ (by decide)]
    simp [unitSeconds_h, unitSeconds_m,
      show digitsToNat ['1'] = 1 from rfl, show digitsToNat ['3', '0'] = 30 from rfl]
    norm_num
  · rw [show ("500ms").toList = renderTokens [(['5', '0', '0'], ['m', 's'])] from rfl,
      parseGoDuration_render _ (by decide)]
    simp [unitSeconds_ms, show digitsToNat ['5', '0', '0'] = 500 from rfl]
    norm_num
  · rw [show ("53s").toList = renderTokens [(['5', '3'], ['s'])] from rfl,
      parseGoDuration_render _ (by decide)]
    simp [unitSeconds_s, show digitsToNat ['5', '3'] = 53 from rfl]

/-- Witness for the general summation clause of `go_duration_values`:
`"4ms"` as one rendered component. -/
theorem go_duration_values_witness :
    parseGoDuration (renderTokens [(['4'], ['m', 's'])]) =
      ([(['4'], ['m', 's'])].map
        (fun t => unitSeconds t.2 (digitsToNat t.1))).sum :=
  go_duration_values.2.2.2.2 [(['4'], ['m', 's'])] (by decide)

/-- C6.  `extract_retry_after` inspects provider-specific signals in
priority order and falls back to `config.base_backoff` when none yields a
value: with no extractable signal every provider (and any unknown provider)
gets the base backoff; for anthropic a numeric `retry-after` header wins and
a non-numeric one falls back; for the openai family a numeric `retry-after`
wins, a non-numeric one is parsed as a Go duration, otherwise the
`x-ratelimit-reset-requests` then `x-ratelimit-reset-tokens` headers are
parsed as Go durations ("truthy" values only), and otherwise the base
backoff; for google the first JSON-body `RetryInfo` detail with a non-empty
`retryDelay` wins (even over a structured duration object), else a positive
proto duration, else the base backoff. -/
theorem extract_retry_after_priority (cfg : RetryConfig) :
    (∀ p : String, extractRetryAfter p noSignal cfg = cfg.baseBackoff) ∧
    (∀ (e : ExcInfo) (h : String → Option String) (v : String) (x : ℚ),
      e.headers = some h → h ("retry-after") = some v → pyFloat v = some x →
      extractRetryAfter ("anthropic") e cfg = x) ∧
    (∀ (e : ExcInfo) (h : String → Option String) (v : String),
      e.headers = some h → h ("retry-after") = some v → pyFloat v = none →
      extractRetryAfter ("anthropic") e cfg = cfg.baseBackoff) ∧
    (∀ (p : String) (e : ExcInfo) (h : String → Option String) (v : String) (x : ℚ),
      (p = "openai" ∨ p = "xai" ∨ p = "deepseek") → e.headers = some h →
      h ("retry-after") = some v → pyFloat v = some x →
      extractRetryAfter p e cfg = x) ∧
    (∀ (p : String) (e : ExcInfo) (h : String → Option String) (v : String),
      (p = "openai" ∨ p = "xai" ∨ p = "deepseek") → e.headers = some h →
      h ("retry-after") = some v → pyFloat v = none →
      extractRetryAfter p e cfg = parseGoDuration v.toList) ∧
    (∀ (p : String) (e : ExcInfo) (h : String → Option String) (v : String),
      (p = "openai" ∨ p = "xai" ∨ p = "deepseek") → e.headers = some h →
      h ("retry-after") = none →
      resetHeaderVal h ("x-ratelimit-reset-requests") = some v →
      extractRetryAfter p e cfg = parseGoDuration v.toList) ∧
    (∀ (p : String) (e : ExcInfo) (h : String → Option String) (v : String),
      (p = "openai" ∨ p = "xai" ∨ p = "deepseek") → e.headers = some h →
      h ("retry-after") = none →
      resetHeaderVal h ("x-ratelimit-reset-requests") = none →
      resetHeaderVal h ("x-ratelimit-reset-tokens") = some v →
      extractRetryAfter p e cfg = parseGoDuration v.toList) ∧
    (∀ (p : String) (e : ExcInfo) (h : String → Option String),
      (p = "openai" ∨ p = "xai" ∨ p = "deepseek") → e.headers = some h →
      h ("retry-after") = none →
      resetHeaderVal h ("x-ratelimit-reset-requests") = none →
      resetHeaderVal h ("x-ratelimit-reset-tokens") = none →
      extractRetryAfter p e cfg = cfg.baseBackoff) ∧
    (∀ (e : ExcInfo) (ds : List RetryDetail) (d : RetryDetail),
      e.bodyDetails = some ds →
      ds.find? (fun d2 => d2.typeUrl.endsWith ("RetryInfo") && d2.retryDelay != "") =
        some d →
      extractRetryAfter ("google") e cfg = parseGoDuration d.retryDelay.toList) ∧
    (∀ (e : ExcInfo) (pd : ProtoDuration), e.bodyDetails = none →
      e.retryDelay = some pd → 0 < pd.seconds + pd.nanos / 1000000000 →
      extractRetryAfter ("google") e cfg = pd.seconds + pd.nanos / 1000000000) ∧
    (∀ (e : ExcInfo) (pd : ProtoDuration), e.bodyDetails = none →
      e.retryDelay = some pd → ¬ 0 < pd.seconds + pd.nanos / 1000000000 →
      extractRetryAfter ("google") e cfg = cfg.baseBackoff) ∧
    (∀ (p : String) (e : ExcInfo), p ≠ "anthropic" → p ≠ "openai" → p ≠ "xai" →
      p ≠ "deepseek" → p ≠ "google" →
      extractRetryAfter p e cfg = cfg.baseBackoff) := by
  refine ⟨?_, ?_, ?_, ?_, ?_, ?_, ?_, ?_, ?_, ?_, ?_, ?_⟩
  · intro p
    simp only [Retry.extractRetryAfter, Retry.noSignal]
    split_ifs <;> rfl
  · intro e h v x he hh hf
    simp [Retry.extractRetryAfter, he, hh, hf]
  · intro e h v he hh hf
    simp [Retry.extractRetryAfter, he, hh, hf]
  · intro p e h v x hp he hh hf
    rcases hp with hp | hp | hp <;> subst hp <;>
      simp [Retry.extractRetryAfter, he, hh, hf]
  · intro p e h v hp he hh hf
    rcases hp with hp | hp | hp <;> subst hp <;>
      simp [Retry.extractRetryAfter, he, hh, hf]
  · intro p e h v hp he hh hv
    rcases hp with hp | hp | hp <;> subst hp <;>
      simp [Retry.extractRetryAfter, he, hh, hv]
  · intro p e h v hp he hh hv1 hv2
    rcases hp with hp | hp | hp <;> subst hp <;>
      simp [Retry.extractRetryAfter, he, hh, hv1, hv2]
  · intro p e h hp he hh hv1 hv2
    rcases hp with hp | hp | hp <;> subst hp <;>
      simp [Retry.extractRetryAfter, he, hh, hv1, hv2]
  · intro e ds d hb hf
    simp [Retry.extractRetryAfter, hb, hf]
  · intro e pd hb hr hpos
    simp [Retry.extractRetryAfter, hb, hr, hpos]
  · intro e pd hb hr hpos
    simp [Retry.extractRetryAfter, hb, hr, hpos]
  · intro p e h1 h2 h3 h4 h5
    simp [Retry.extractRetryAfter, h1, h2, h3, h4, h5]

/-- Witness for `extract_retry_after_priority`: an anthropic exception whose
`retry-after` header is the numeric string `7` yields a 7-second wait. -/
theorem extract_retry_after_priority_witness :
    extractRetryAfter ("anthropic")
      { headers := some (fun n => if n = "retry-after" then some ("7") else none),
        bodyDetails := none, retryDelay := none }
      ({} : RetryConfig) = 7 := by
  have h7 : Retry.pyFloat ("7") =
      some ((1 : ℚ) * ((digitsToNat ['7'] : ℕ) : ℚ)) := rfl
  have h7b : Retry.pyFloat ("7") = some 7 := by
    rw [h7, show digitsToNat ['7'] = 7 from rfl]
    norm_num
  exact (extract_retry_after_priority ({} : RetryConfig)).2.1 _ _ ("7") 7 rfl
    (by simp) h7b

theorem joinParas_length (ps : List Seg.Text) (h : ps ≠ []) :
    (joinParas ps).length + 2 = sumLens ps := by
  induction ps with
  | nil => exact absurd rfl h
  | cons p ps ih =>
    cases ps with
    | nil => simp [Seg.joinParas, Seg.sumLens]
    | cons q qs =>
      have h2 := ih (by simp)
      simp only [Seg.joinParas, Seg.sumLens, List.map_cons, List.sum_cons,
        List.length_append, List.length_cons] at h2 ⊢
      omega

theorem sumLens_append_one (ps : List Seg.Text) (p : Seg.Text) :
    sumLens (ps ++ [p]) = sumLens ps + (p.length + 2) := by
  simp [Seg.sumLens]

theorem hardSplitGo_length (m : ℕ) (hm : 0 < m) : ∀ (fuel : ℕ) (l : Seg.Text),
    l.length ≤ fuel → ∀ c ∈ hardSplitGo m fuel l, c.length ≤ m := by
  intro fuel
  induction fuel with
  | zero =>
    intro l hl c hc
    cases l with
    | nil => simp [Seg.hardSplitGo] at hc
    | cons a l => simp at hl
  | succ f ih =>
    intro l hl c hc
    cases l with
    | nil => simp [Seg.hardSplitGo] at hc
    | cons a l =>
      rw [Seg.hardSplitGo] at hc
      rw [if_neg (by omega)] at hc
      rcases List.mem_cons.mp hc with hc | hc
      · subst hc
        simp
      · refine ih ((a :: l).drop m) ?_ c hc
        have := List.length_drop m (a :: l)
        simp at hl ⊢
        omega
      · simp

theorem hardSplit_length (m : ℕ) (hm : 0 < m) (l : Seg.Text) :
    ∀ c ∈ hardSplit m l, c.length ≤ m :=
  hardSplitGo_length m hm l.length l le_rfl

theorem splitLongGo_length (m : ℕ) (hm : 0 < m) : ∀ (paras cur : List Seg.Text)
    (curLen : ℕ), curLen = sumLens cur → curLen ≤ m →
    ∀ c ∈ splitLongGo m paras cur curLen, c.length ≤ m := by
  intro paras
  induction paras with
  | nil =>
    intro cur curLen hsum hle c hc
    simp only [Seg.splitLongGo] at hc
    split at hc
    · simp at hc
    · rename_i hne
      simp at hc
      subst hc
      have := joinParas_length cur hne
      omega
  | cons p rest ih =>
    intro cur curLen hsum hle c hc
    simp only [Seg.splitLongGo] at hc
    by_cases hflush : m < curLen + (p.length + 2) ∧ cur ≠ []
    · rw [if_pos hflush, if_pos hflush, if_pos hflush] at hc
      by_cases hbig : m < p.length + 2
      · rw [if_pos hbig] at hc
        simp only [List.mem_append, List.mem_singleton] at hc
        rcases hc with (hc | hc) | hc
        · subst hc
          have := joinParas_length cur hflush.2
          omega
        · exact hardSplit_length m hm p c hc
        · exact ih [] 0 rfl (by omega) c hc
      · rw [if_neg hbig] at hc
        simp only [List.mem_append, List.mem_singleton] at hc
        rcases hc with hc | hc
        · subst hc
          have := joinParas_length cur hflush.2
          omega
        · refine ih [p] (0 + (p.length + 2)) (by simp [Seg.sumLens]) (by omega) c hc
    · rw [if_neg hflush, if_neg hflush, if_neg hflush] at hc
      by_cases hbig : m < p.length + 2
      · rw [if_pos hbig] at hc
        have hcurnil : cur = [] := by
          by_contra hne
          exact hflush ⟨by omega, hne⟩
        subst hcurnil
        simp only [List.nil_append, List.mem_append] at hc
        rcases hc with hc | hc
        · exact hardSplit_length m hm p c hc
        · exact ih [] curLen hsum hle c hc
      · rw [if_neg hbig] at hc
        simp only [List.nil_append] at hc
        have hfit : curLen + (p.length + 2) ≤ m := by
          rcases not_and_or.mp hflush with hx | hx
          · omega
          · have : cur = [] := not_ne_iff.mp hx
            subst this
            simp [Seg.sumLens] at hsum
            omega
        refine ih (cur ++ [p]) (curLen + (p.length + 2))
          (by rw [sumLens_append_one, hsum]) hfit c hc

theorem splitLongText_length (m : ℕ) (hm : 0 < m) (t : Seg.Text) :
    ∀ c ∈ splitLongText m t, c.length ≤ m := by
  intro c hc
  unfold Seg.splitLongText at hc
  split at hc
  · rename_i hle
    simp at hc
    subst hc
    exact hle
  · rename_i hgt
    exact splitLongGo_length m hm (splitParas t) [] 0 rfl (by omega) c hc

theorem secNodesOf_text_mem (s : String × String × Seg.Text) (n : SecNode)
    (hn : n ∈ secNodesOf s) :
    n.text ∈ splitLongText 8000 (cleanText s.2.2) := by
  simp only [Seg.secNodesOf] at hn
  by_cases h : (cleanText s.2.2).length < 200
  · rw [if_pos h] at hn
    simp at hn
  · rw [if_neg h] at hn
    simp only [List.mem_map] at hn
    obtain ⟨ic, hic, hmk⟩ := hn
    have : n.text = ic.2 := by rw [← hmk]
    rw [this]
    have := List.enum_map_snd (splitLongText 8000 (cleanText s.2.2))
    rw [← this]
    exact List.mem_map_of_mem Prod.snd hic

theorem transcriptNodesOf_text_mem (qa : Option ℕ) (sg : Segment) (n : TNode)
    (hn : n ∈ transcriptNodesOf qa sg) :
    n.text ∈ splitLongText 6000 (stripText sg.text) := by
  simp only [Seg.transcriptNodesOf] at hn
  by_cases h : (stripText sg.text).length < 50
  · rw [if_pos h] at hn
    simp at hn
  · rw [if_neg h] at hn
    simp only [List.mem_map] at hn
    obtain ⟨ic, hic, hmk⟩ := hn
    have : n.text = ic.2 := by rw [← hmk]
    rw [this]
    have := List.enum_map_snd (splitLongText 6000 (stripText sg.text))
    rw [← this]
    exact List.mem_map_of_mem Prod.snd hic

/-- C2 (amended).  Segmenter length bounds: every node emitted by the SEC
parser pipeline (over any extracted text-block list) has text length at most
`MAX_NODE_LENGTH = 8000`, and every node emitted by the transcript parser
pipeline (over any speaker segmentation and Q&A boundary) has text length at
most `MAX_NODE_LENGTH = 6000`; the minimum-length thresholds
(`MIN_SECTION_LENGTH = 200`, `MIN_SEGMENT_LENGTH = 50`) apply to the
*section/segment before chunk splitting* — a short section emits no nodes —
but an emitted chunk may be shorter (see the counterexample). -/
theorem segmenter_length_bounds :
    (∀ (blocks : List Seg.Text) (n : SecNode), n ∈ secParse blocks →
      n.text.length ≤ 8000) ∧
    (∀ (qa : Option ℕ) (segs : List Segment) (n : TNode),
      n ∈ transcriptNodes qa segs → n.text.length ≤ 6000) ∧
    (∀ s : String × String × Seg.Text, (cleanText s.2.2).length < 200 →
      secNodesOf s = []) ∧
    (∀ (qa : Option ℕ) (sg : Segment), (stripText sg.text).length < 50 →
      transcriptNodesOf qa sg = []) := by
  refine ⟨?_, ?_, ?_, ?_⟩
  · intro blocks n hn
    unfold Seg.secParse at hn
    obtain ⟨s, _, hns⟩ := List.mem_flatMap.mp hn
    exact splitLongText_length 8000 (by norm_num) _ n.text
      (secNodesOf_text_mem s n hns)
  · intro qa segs n hn
    unfold Seg.transcriptNodes at hn
    obtain ⟨sg, _, hns⟩ := List.mem_flatMap.mp hn
    exact splitLongText_length 6000 (by norm_num) _ n.text
      (transcriptNodesOf_text_mem qa sg n hns)
  · intro s hs
    simp only [Seg.secNodesOf]
    rw [if_pos hs]
  · intro qa sg hs
    simp only [Seg.transcriptNodesOf]
    rw [if_pos hs]

theorem dropWhile_all_false (p : Char → Bool) (l : List Char)
    (h : ∀ c ∈ l, p c = false) : l.dropWhile p = l := by
  cases l with
  | nil => rfl
  | cons a l => simp [List.dropWhile_cons, h a (by simp)]

theorem stripText_all_plain (l : Seg.Text) (h : ∀ c ∈ l, isPyWs c = false) :
    stripText l = l := by
  unfold Seg.stripText
  rw [dropWhile_all_false _ _ h]
  rw [dropWhile_all_false _ _ (fun c hc => h c (List.mem_reverse.mp hc))]
  exact List.reverse_reverse l

theorem squashRunsGo_all_false (p : Char → Bool) (r : Char) :
    ∀ (l : List Char) (b : Bool), (∀ c ∈ l, p c = false) →
    squashRunsGo p r b l = l := by
  intro l
  induction l with
  | nil => intro b _; rfl
  | cons a l ih =>
    intro b h
    simp only [Seg.squashRunsGo, h a (by simp)]
    simp [ih false (fun c hc => h c (by simp [hc]))]

theorem squashNlGo_no_newline : ∀ (l : List Char),
    (∀ c ∈ l, (c = '\n') = False) → squashNlGo 0 l = l := by
  intro l
  induction l with
  | nil => intro _; rfl
  | cons a l ih =>
    intro h
    rw [Seg.squashNlGo]
    rw [if_neg (by simpa using (h a (by simp)))]
    simp [Seg.emitNl, ih (fun c hc => h c (by simp [hc]))]

theorem cleanText_replicate (n : ℕ) (c : Char) (h1 : tabCrNbsp c = false)
    (h2 : (c == ' ') = false) (h3 : (c = '\n') = False)
    (h4 : isPyWs c = false) :
    cleanText (List.replicate n c) = List.replicate n c := by
  have hmem : ∀ d ∈ List.replicate n c, d = c := fun d hd =>
    List.eq_of_mem_replicate hd
  unfold Seg.cleanText Seg.squashRuns Seg.squashNewlines
  rw [squashRunsGo_all_false Seg.tabCrNbsp ' ' (List.replicate n c) false
    (fun d hd => (hmem d hd) ▸ h1)]
  rw [squashRunsGo_all_false _ ' ' (List.replicate n c) false
    (fun d hd => (hmem d hd) ▸ h2)]
  rw [squashNlGo_no_newline _ (fun d hd => (hmem d hd) ▸ h3)]
  exact stripText_all_plain _ (fun d hd => (hmem d hd) ▸ h4)

theorem splitParasGo_no_newline : ∀ (l : List Char) (cur : Seg.Text),
    (∀ c ∈ l, (c = '\n') = False) → splitParasGo cur l = [cur.reverse ++ l] := by
  intro l
  induction l with
  | nil => intro cur _; simp [Seg.splitParasGo]
  | cons a l ih =>
    intro cur h
    cases l with
    | nil => simp [Seg.splitParasGo]
    | cons b l2 =>
      rw [Seg.splitParasGo]
      rw [if_neg (by
        intro hab
        exact absurd hab.1 (by simpa using h a (by simp)))]
      rw [ih (a :: cur) (fun d hd => h d (by simp at hd; simp [hd]))]
      simp

theorem splitParas_replicate_a (n : ℕ) :
    splitParas (List.replicate n 'a') = [List.replicate n 'a'] := by
  unfold Seg.splitParas
  rw [splitParasGo_no_newline _ [] (fun d hd => by
    have := List.eq_of_mem_replicate hd
    subst this
    simp)]
  simp

theorem identifySection_replicate_a (n : ℕ) :
    identifySection (List.replicate (n + 1) 'a') = none := by
  have hs : stripText (List.replicate (n + 1) 'a') = List.replicate (n + 1) 'a' :=
    stripText_all_plain _ (fun d hd => by
      have := List.eq_of_mem_replicate hd
      subst this
      rfl)
  have hdw : (List.replicate (n + 1) 'a').dropWhile isPyWs =
      List.replicate (n + 1) 'a' :=
    dropWhile_all_false _ _ (fun d hd => by
      have := List.eq_of_mem_replicate hd
      subst this
      rfl)
  simp only [Seg.identifySection, Seg.itemMatch, Seg.partMatch]
  rw [hs, hdw]
  rw [List.replicate_succ]
  simp [Seg.matchCI]

theorem hardSplitGo_cons (m fuel : ℕ) (c : Char) (cs : List Char) :
    hardSplitGo m (fuel + 1) (c :: cs) =
      if m = 0 then [c :: cs]
      else (c :: cs).take m :: hardSplitGo m fuel ((c :: cs).drop m) := rfl

theorem hardSplitGo_nil (m fuel : ℕ) : hardSplitGo m fuel ([] : List Char) = [] := by
  cases fuel <;> rfl

theorem hardSplit_8001 :
    hardSplit 8000 (List.replicate 8001 'a') =
      [List.replicate 8000 'a', ['a']] := by
  have htake : (List.replicate 8001 'a').take 8000 = List.replicate 8000 'a' := by
    rw [List.take_replicate]
    norm_num
  have hdrop : (List.replicate 8001 'a').drop 8000 = ['a'] := by
    rw [List.drop_replicate]
    norm_num
  have htake1 : (['a'] : List Char).take 8000 = ['a'] := by
    rw [List.take_of_length_le]
    simp
  have hdrop1 : (['a'] : List Char).drop 8000 = [] := by
    rw [List.drop_of_length_le]
    simp
  unfold Seg.hardSplit
  rw [List.length_replicate]
  conv_lhs => rw [show (8001 : ℕ) = 8000 + 1 from rfl, List.replicate_succ]
  rw [hardSplitGo_cons, if_neg (by norm_num)]
  rw [← List.replicate_succ, show (8000 : ℕ) + 1 = 8001 from rfl, htake, hdrop]
  rw [show (8000 : ℕ) = 7999 + 1 from rfl, hardSplitGo_cons, if_neg (by norm_num)]
  rw [htake1, hdrop1, hardSplitGo_nil]

theorem splitLongText_8001 :
    splitLongText 8000 (List.replicate 8001 'a') =
      [List.replicate 8000 'a', ['a']] := by
  unfold Seg.splitLongText
  rw [List.length_replicate]
  rw [if_neg (by norm_num)]
  rw [splitParas_replicate_a]
  simp only [Seg.splitLongGo]
  rw [List.length_replicate]
  rw [if_neg (by simp : ¬ ((8000 : ℕ) < 0 + (8001 + 2) ∧
    (([] : List Seg.Text)) ≠ []))]
  rw [if_pos (by norm_num : (8000 : ℕ) < 8001 + 2)]
  rw [hardSplit_8001]
  simp only [ite_self, if_true]
  simp only [List.nil_append, List.append_nil]

/-- C2 counterexample.  The claim "no emitted node's text is shorter than
MIN_SECTION_LENGTH (200)" is false: a single text block of 8001 `a`s (e.g.
the extraction of `<p>aaa…a</p>`) passes the 200-character section filter,
but the hard 8000-boundary split emits chunks of lengths 8000 and 1 — the
second emitted node is 1 character long, far below the minimum. -/
theorem segmenter_min_length_counterexample :
    (secParse [List.replicate 8001 'a']).map (fun n => n.text.length) =
      [8000, 1] ∧ (1 : ℕ) < 200 := by
  refine ⟨?_, by norm_num⟩
  have hid : identifySection (List.replicate 8001 'a') = none :=
    identifySection_replicate_a 8000
  have hclean : cleanText (List.replicate 8001 'a') = List.replicate 8001 'a' :=
    cleanText_replicate 8001 'a' rfl rfl (eq_false (by decide)) rfl
  unfold Seg.secParse Seg.secSections
  simp only [Seg.secSectionsGo, hid, List.nil_append]
  simp only [List.cons_ne_nil, if_false, Seg.joinParas]
  simp only [List.flatMap_cons, List.flatMap_nil, List.append_nil]
  simp only [Seg.secNodesOf, hclean, List.length_replicate]
  rw [if_neg (by norm_num)]
  rw [splitLongText_8001]
  simp only [List.enum, List.enumFrom, List.map_cons, List.map_nil,
    List.length_cons, List.length_nil, List.length_replicate]

set_option maxRecDepth 40000 in
theorem segmenter_length_bounds_witness :
    ({ text := List.replicate 200 'a', sectionId := ("preamble"),
       sectionName := ("Preamble"), chunkIndex := none } : SecNode).text.length ≤ 8000 ∧
    secNodesOf (("s"), (("S"), ([] : Seg.Text))) = [] ∧
    transcriptNodesOf none
      { speaker := ("X"), role := ("Y"), text := [], startPos := 0 } = [] :=
  ⟨segmenter_length_bounds.1 [List.replicate 200 'a'] _ (by decide),
    segmenter_length_bounds.2.2.1 _ (by decide),
    segmenter_length_bounds.2.2.2 none _ (by decide)⟩

theorem secNodesOf_single (sid sname : String) (t : Seg.Text)
    (hl : 200 ≤ (cleanText t).length) (hs : (cleanText t).length ≤ 8000) :
    secNodesOf (sid, sname, t) =
      [{ text := cleanText t, sectionId := sid, sectionName := sname,
         chunkIndex := none }] := by
  simp only [Seg.secNodesOf]
  rw [if_neg (by omega)]
  rw [show splitLongText 8000 (cleanText t) = [cleanText t] from by
    unfold Seg.splitLongText
    rw [if_pos hs]]
  simp [List.enum, List.enumFrom]

/-- C7.  Section identity and preamble assignment: for any block sequence
`[b0, "Item 1A", b1, "Item 7", b2]` in which the `b` blocks match no heading
pattern and clean to in-range lengths, the parser emits exactly three nodes:
the text before the first recognized heading under the `preamble`
pseudo-section, the text after "Item 1A" tagged "Risk Factors", and the text
after "Item 7" tagged "Management\x27s Discussion and Analysis (MD&A)" —
text between two recognized headings is attributed to the first heading. -/
theorem sec_section_identity (b0 b1 b2 : Seg.Text)
    (h0 : identifySection b0 = none) (h1 : identifySection b1 = none)
    (h2 : identifySection b2 = none)
    (hl0 : 200 ≤ (cleanText b0).length) (hs0 : (cleanText b0).length ≤ 8000)
    (hl1 : 200 ≤ (cleanText b1).length) (hs1 : (cleanText b1).length ≤ 8000)
    (hl2 : 200 ≤ (cleanText b2).length) (hs2 : (cleanText b2).length ≤ 8000) :
    secParse [b0, ("Item 1A").toList, b1, ("Item 7").toList, b2] =
      [ { text := cleanText b0, sectionId := ("preamble"),
          sectionName := ("Preamble"), chunkIndex := none },
        { text := cleanText b1, sectionId := ("item 1a"),
          sectionName := ("Risk Factors"), chunkIndex := none },
        { text := cleanText b2, sectionId := ("item 7"),
          sectionName := ("Management\x27s Discussion and Analysis (MD&A)"),
          chunkIndex := none } ] := by
  have e1 : identifySection ("Item 1A").toList =
      some (("item 1a"), ("Risk Factors")) := by decide
  have e7 : identifySection ("Item 7").toList =
      some (("item 7"), ("Management\x27s Discussion and Analysis (MD&A)")) := by
    decide
  unfold Seg.secParse Seg.secSections
  simp only [Seg.secSectionsGo, h0, h1, h2, e1, e7, List.nil_append,
    List.cons_ne_nil, if_false, Seg.joinParas]
  simp only [List.flatMap_cons, List.flatMap_nil, List.append_nil,
    List.cons_append, List.nil_append]
  rw [secNodesOf_single _ _ _ hl0 hs0, secNodesOf_single _ _ _ hl1 hs1,
    secNodesOf_single _ _ _ hl2 hs2]
  simp

set_option maxRecDepth 40000 in
theorem sec_section_identity_witness :
    secParse [List.replicate 250 'a', ("Item 1A").toList,
        List.replicate 300 'b', ("Item 7").toList, List.replicate 300 'c'] =
      [ { text := cleanText (List.replicate 250 'a'), sectionId := ("preamble"),
          sectionName := ("Preamble"), chunkIndex := none },
        { text := cleanText (List.replicate 300 'b'), sectionId := ("item 1a"),
          sectionName := ("Risk Factors"), chunkIndex := none },
        { text := cleanText (List.replicate 300 'c'), sectionId := ("item 7"),
          sectionName := ("Management\x27s Discussion and Analysis (MD&A)"),
          chunkIndex := none } ] :=
  sec_section_identity _ _ _ (by decide) (by decide) (by decide)
    (by decide) (by decide) (by decide) (by decide) (by decide) (by decide)
